import Mathlib

/-!
Verification of the pjsk-render scheduling / score-solving core.

The definitions below are shallow embeddings of the Python functions in
src/bot.py and src/render_funcs.py:

* ScoreSolver: find_solution (bot.py) over a catalog of integer scores.
* ScheduleEngine: is_signup_closed, auto_assign_schedule, refresh_schedule
  (bot.py).  Moments in time are rationals (hours), bonuses are rationals.
* PlanSearch: the catch-up adjustment and result selection of
  find_push_plans (render_funcs.py).
* SnapshotStore: record_ranking_snapshot (bot.py); timestamp strings are
  modelled as character lists.
* parse_time_range (bot.py).

Python floating point arithmetic is modelled by exact rational arithmetic,
Python round (banker's rounding) by an explicit half-to-even rounding
function, and Python's stable sorted by a stable insertion sort on the
same key.
-/

/-- Python round(x): round half to even (banker's rounding), on rationals. -/
def pythonRound (q : ℚ) : ℤ :=
  if q - ⌊q⌋ < 1/2 then ⌊q⌋
  else if 1/2 < q - ⌊q⌋ then ⌊q⌋ + 1
  else if Even ⌊q⌋ then ⌊q⌋ else ⌊q⌋ + 1

/-- Python round(x, 1): round half to even at one decimal place. -/
def roundTo1 (q : ℚ) : ℚ := (pythonRound (10 * q) : ℚ) / 10

/-- Python f-string formatting with the 02d conversion, for n below 100. -/
def two_digit (n : ℕ) : String := (if n < 10 then "0" else "") ++ toString n

/-- Insert an element into a list, after every element that compares
below-or-equal to it; the building block of a stable sort. -/
def insertBy {α : Type} (le : α → α → Bool) (a : α) : List α → List α
  | [] => [a]
  | b :: bs => if le b a then b :: insertBy le a bs else a :: b :: bs

/-- Stable insertion sort: the result of Python's sorted (a stable sort)
for the total preorder le.  Elements are inserted left to right, so the
original order of key-equal elements is kept. -/
def sortBy {α : Type} (le : α → α → Bool) (l : List α) : List α :=
  l.foldl (fun acc x => insertBy le x acc) []

/-! ## ScoreSolver: find_solution (src/bot.py)

A solution term is a pair (score, plays); the source attaches the
catalog row metadata (range, bonus, energy) of the score to each term via
the ms helper, which no claim touches, so terms are modelled by the two
numbers that drive the search.  The catalog tbl.scores is the list of
distinct achievable values sorted descending, and tbl.score_set holds the
same values. -/

/-- One term of a solver decomposition: (score value, play count). -/
abbrev SolTerm := ℕ × ℕ

/-- The single-value pass condition on a catalog value s
(s less-or-equal target, target divisible by s, quotient within max_plays). -/
def singleCond (target mp s : ℕ) : Prop := s ≤ target ∧ target % s = 0 ∧ target / s ≤ mp

instance (target mp s : ℕ) : Decidable (singleCond target mp s) := by
  unfold singleCond; infer_instance

/-- Inner loop of the two-value pass: p1 runs from n down to 1; the
remainder target - s1 * p1 is returned alongside when it is a catalog
value, and alone when it is zero. -/
def twoInner (scores : List ℕ) (target s1 : ℕ) : ℕ → Option (List SolTerm)
  | 0 => none
  | p + 1 =>
    let p1 := p + 1
    let rem := target - s1 * p1
    if rem = 0 then some [(s1, p1)]
    else if rem ∈ scores then some [(s1, p1), (rem, 1)]
    else twoInner scores target s1 p

/-- Outer loop of the two-value pass: s1 runs over the catalog suffix l
in order, skipping values above target. -/
def twoPassAux (scores : List ℕ) (target mp : ℕ) : List ℕ → Option (List SolTerm)
  | [] => none
  | s1 :: rest =>
    if target < s1 then twoPassAux scores target mp rest
    else
      match twoInner scores target s1 (min (target / s1) mp) with
      | some sol => some sol
      | none => twoPassAux scores target mp rest

/-- find_solution (src/bot.py): the single-value pass over the descending
catalog, then the two-value pass; none when the target is not positive
(the source also returns None when no score table is loaded). -/
def find_solution (scores : List ℕ) (target mp : ℕ) : Option (List SolTerm) :=
  if target = 0 then none
  else
    match scores.find? (fun s => decide (singleCond target mp s)) with
    | some s => some [(s, target / s)]
    | none => twoPassAux scores target mp scores

/-- Total number of plays a decomposition assigns to the score value v. -/
def value_total_plays (terms : List SolTerm) (v : ℕ) : ℕ :=
  ((terms.filter (fun t => t.1 = v)).map (fun t => t.2)).sum

theorem find?_first_is_max {p : ℕ → Bool} :
    ∀ {scores : List ℕ}, List.Sorted (· > ·) scores →
      ∀ {s : ℕ}, scores.find? p = some s → ∀ t ∈ scores, p t → t ≤ s := by
  intro scores
  induction scores with
  | nil => intro _ s h; simp [List.find?] at h
  | cons a rest ih =>
    intro hsort s h t ht hp
    rw [List.sorted_cons] at hsort
    rcases List.mem_cons.mp ht with rfl | htr
    · by_cases hpa : p t
      · rw [List.find?_cons_of_pos _ hpa] at h
        obtain rfl : t = s := by simpa using h
        exact le_refl _
      · exact absurd hp hpa
    · by_cases hpa : p a
      · rw [List.find?_cons_of_pos _ hpa] at h
        obtain rfl : a = s := by simpa using h
        exact le_of_lt (hsort.1 t htr)
      · rw [List.find?_cons_of_neg _ hpa] at h
        exact ih hsort.2 h t htr hp

/-- C4: when some catalog value divides the target within the play bound,
find_solution returns the one-term solution for the first (largest, on a
descending catalog) such value, before any two-value combination. -/
theorem find_solution_single_pass (scores : List ℕ) (target mp : ℕ)
    (hsort : List.Sorted (· > ·) scores) (ht : 0 < target)
    (hex : ∃ s ∈ scores, singleCond target mp s) :
    ∃ s ∈ scores, singleCond target mp s ∧
      find_solution scores target mp = some [(s, target / s)] ∧
      ∀ t ∈ scores, singleCond target mp t → t ≤ s := by
  have hfind : (scores.find? (fun s => decide (singleCond target mp s))).isSome := by
    rw [List.find?_isSome]
    obtain ⟨s, hs, hc⟩ := hex
    exact ⟨s, hs, by simpa using hc⟩
  obtain ⟨s, hsome⟩ := Option.isSome_iff_exists.mp hfind
  refine ⟨s, List.mem_of_find?_eq_some hsome, by simpa using List.find?_some hsome, ?_, ?_⟩
  · unfold find_solution
    rw [if_neg (Nat.pos_iff_ne_zero.mp ht), hsome]
  · intro t htm htc
    exact find?_first_is_max hsort hsome t htm (by simpa using htc)

theorem twoInner_some_spec {scores : List ℕ} {target s1 : ℕ} :
    ∀ {n : ℕ} {sol : List SolTerm}, twoInner scores target s1 n = some sol →
      ∃ p1, 1 ≤ p1 ∧ p1 ≤ n ∧
        ((target - s1 * p1 = 0 ∧ sol = [(s1, p1)]) ∨
          (target - s1 * p1 ≠ 0 ∧ (target - s1 * p1) ∈ scores ∧
            sol = [(s1, p1), (target - s1 * p1, 1)])) ∧
        ∀ p', p1 < p' → p' ≤ n →
          ¬(target - s1 * p' = 0 ∨ (target - s1 * p') ∈ scores) := by
  intro n
  induction n with
  | zero => intro sol h; simp [twoInner] at h
  | succ p ih =>
    intro sol h
    unfold twoInner at h
    by_cases h0 : target - s1 * (p + 1) = 0
    · rw [if_pos h0] at h
      obtain rfl : [(s1, p + 1)] = sol := by simpa using h
      refine ⟨p + 1, Nat.le_add_left 1 p, le_refl _, Or.inl ⟨h0, rfl⟩, ?_⟩
      intro p' hlt hle
      omega
    · rw [if_neg h0] at h
      by_cases hmem : (target - s1 * (p + 1)) ∈ scores
      · rw [if_pos hmem] at h
        obtain rfl : [(s1, p + 1), (target - s1 * (p + 1), 1)] = sol := by simpa using h
        refine ⟨p + 1, Nat.le_add_left 1 p, le_refl _,
          Or.inr ⟨h0, hmem, rfl⟩, ?_⟩
        intro p' hlt hle
        omega
      · rw [if_neg hmem] at h
        obtain ⟨p1, h1, h2, h3, h4⟩ := ih h
        refine ⟨p1, h1, Nat.le_succ_of_le h2, h3, ?_⟩
        intro p' hlt hle
        rcases Nat.lt_or_ge p' (p + 1) with hc | hc
        · exact h4 p' hlt (Nat.lt_succ_iff.mp hc)
        · have : p' = p + 1 := le_antisymm hle hc
          subst this
          rintro (hz | hm)
          · exact h0 hz
          · exact hmem hm

theorem twoInner_none_spec {scores : List ℕ} {target s1 : ℕ} :
    ∀ {n : ℕ}, twoInner scores target s1 n = none →
      ∀ p', 1 ≤ p' → p' ≤ n →
        ¬(target - s1 * p' = 0 ∨ (target - s1 * p') ∈ scores) := by
  intro n
  induction n with
  | zero => intro _ p' h1 h2; omega
  | succ p ih =>
    intro h p' h1 h2
    unfold twoInner at h
    by_cases h0 : target - s1 * (p + 1) = 0
    · rw [if_pos h0] at h; exact absurd h (by simp)
    · rw [if_neg h0] at h
      by_cases hmem : (target - s1 * (p + 1)) ∈ scores
      · rw [if_pos hmem] at h; exact absurd h (by simp)
      · rw [if_neg hmem] at h
        rcases Nat.lt_or_ge p' (p + 1) with hc | hc
        · exact ih h p' h1 (Nat.lt_succ_iff.mp hc)
        · have : p' = p + 1 := le_antisymm h2 hc
          subst this
          rintro (hz | hm)
          · exact h0 hz
          · exact hmem hm

theorem twoPassAux_spec {scores : List ℕ} {target mp : ℕ} :
    ∀ {l : List ℕ}, List.Sorted (· > ·) l →
      ∀ {terms : List SolTerm}, twoPassAux scores target mp l = some terms →
        ∃ s1 ∈ l, s1 ≤ target ∧ ∃ p1, 1 ≤ p1 ∧ p1 ≤ min (target / s1) mp ∧
          ((target - s1 * p1 = 0 ∧ terms = [(s1, p1)]) ∨
            (target - s1 * p1 ≠ 0 ∧ (target - s1 * p1) ∈ scores ∧
              terms = [(s1, p1), (target - s1 * p1, 1)])) ∧
          ∀ s' ∈ l, s' ≤ target → ∀ p', 1 ≤ p' → p' ≤ min (target / s') mp →
            (target - s' * p' = 0 ∨ (target - s' * p') ∈ scores) →
            s' < s1 ∨ (s' = s1 ∧ p' ≤ p1) := by
  intro l
  induction l with
  | nil => intro _ terms h; simp [twoPassAux] at h
  | cons s1 rest ih =>
    intro hsort terms h
    rw [List.sorted_cons] at hsort
    unfold twoPassAux at h
    by_cases hgt : target < s1
    · rw [if_pos hgt] at h
      obtain ⟨s, hsm, hst, p1, hp1, hp2, hshape, hmax⟩ := ih hsort.2 h
      refine ⟨s, List.mem_cons_of_mem _ hsm, hst, p1, hp1, hp2, hshape, ?_⟩
      intro s' hs' hs'le p' h1 h2 hcond
      rcases List.mem_cons.mp hs' with rfl | hs'r
      · exact absurd hs'le (Nat.not_le_of_lt hgt)
      · exact hmax s' hs'r hs'le p' h1 h2 hcond
    · rw [if_neg hgt] at h
      cases hinner : twoInner scores target s1 (min (target / s1) mp) with
      | some sol =>
        rw [hinner] at h
        obtain ⟨p1, hp1, hp2, hshape, hinmax⟩ := twoInner_some_spec hinner
        obtain rfl : sol = terms := by simpa using h
        refine ⟨s1, List.mem_cons_self .., Nat.le_of_not_lt hgt, p1, hp1, hp2, hshape, ?_⟩
        intro s' hs' hs'le p' h1 h2 hcond
        rcases List.mem_cons.mp hs' with rfl | hs'r
        · right
          refine ⟨rfl, ?_⟩
          by_contra hgt'
          exact hinmax p' (Nat.lt_of_not_le hgt') h2 hcond
        · exact Or.inl (hsort.1 s' hs'r)
      | none =>
        rw [hinner] at h
        obtain ⟨s, hsm, hst, p1, hp1, hp2, hshape, hmax⟩ := ih hsort.2 h
        refine ⟨s, List.mem_cons_of_mem _ hsm, hst, p1, hp1, hp2, hshape, ?_⟩
        intro s' hs' hs'le p' h1 h2 hcond
        rcases List.mem_cons.mp hs' with rfl | hs'r
        · exact absurd hcond (twoInner_none_spec hinner p' h1 h2)
        · exact hmax s' hs'r hs'le p' h1 h2 hcond

/-- C5: when the single-value pass finds nothing, a returned decomposition
comes from the two-value scan: it is [(s1, p1)] on a zero remainder, or
[(s1, p1), (remainder, 1)] with the remainder a catalog value, and no
pair earlier in the scan order (larger s1, then larger p1, on a
descending catalog) satisfies either condition. -/
theorem find_solution_two_pass (scores : List ℕ) (target mp : ℕ)
    (hsort : List.Sorted (· > ·) scores) (ht : 0 < target)
    (hnone : ∀ s ∈ scores, ¬singleCond target mp s)
    (terms : List SolTerm)
    (h : find_solution scores target mp = some terms) :
    ∃ s1 ∈ scores, s1 ≤ target ∧ ∃ p1, 1 ≤ p1 ∧ p1 ≤ min (target / s1) mp ∧
      ((target - s1 * p1 = 0 ∧ terms = [(s1, p1)]) ∨
        (target - s1 * p1 ≠ 0 ∧ (target - s1 * p1) ∈ scores ∧
          terms = [(s1, p1), (target - s1 * p1, 1)])) ∧
      ∀ s' ∈ scores, s' ≤ target → ∀ p', 1 ≤ p' → p' ≤ min (target / s') mp →
        (target - s' * p' = 0 ∨ (target - s' * p') ∈ scores) →
        s' < s1 ∨ (s' = s1 ∧ p' ≤ p1) := by
  unfold find_solution at h
  rw [if_neg (Nat.pos_iff_ne_zero.mp ht)] at h
  have hfind : scores.find? (fun s => decide (singleCond target mp s)) = none := by
    rw [List.find?_eq_none]
    intro s hs
    simpa using hnone s hs
  rw [hfind] at h
  exact twoPassAux_spec hsort h

/-- C6 counterexample: on the catalog [10] with target 510 and the default
bound of 50, the solver returns [(10, 50), (10, 1)], so the single value
10 is played 51 times in total, above the bound. -/
theorem find_solution_total_plays_counterexample :
    find_solution [10] 510 50 = some [(10, 50), (10, 1)] ∧
    value_total_plays [(10, 50), (10, 1)] 10 = 51 ∧
    ¬value_total_plays [(10, 50), (10, 1)] 10 ≤ 50 := by
  refine ⟨?_, by decide, by decide⟩
  decide

/-- C6 (amended): a returned decomposition explains the target exactly and
has at most two terms, hence at most two distinct score values; each
term's play count is between 1 and maxRepeats, so a single value's total
usage can reach maxRepeats + 1 only when both terms carry it. -/
theorem find_solution_sound (scores : List ℕ) (target mp : ℕ)
    (terms : List SolTerm)
    (h : find_solution scores target mp = some terms) :
    (terms.map (fun t => t.1 * t.2)).sum = target ∧
      terms.length ≤ 2 ∧
      ∀ t ∈ terms, 1 ≤ t.2 ∧ t.2 ≤ mp := by
  unfold find_solution at h
  by_cases ht : target = 0
  · rw [if_pos ht] at h; exact absurd h (by simp)
  rw [if_neg ht] at h
  cases hfind : scores.find? (fun s => decide (singleCond target mp s)) with
  | some s =>
    rw [hfind] at h
    obtain rfl : [(s, target / s)] = terms := by simpa using h
    have hc : singleCond target mp s := by simpa using List.find?_some hfind
    obtain ⟨hle, hmod, hdiv⟩ := hc
    have hs0 : 0 < s := by
      rcases Nat.eq_zero_or_pos s with rfl | hpos
      · rw [Nat.mod_zero] at hmod; exact absurd hmod ht
      · exact hpos
    have hq : 1 ≤ target / s := (Nat.one_le_div_iff hs0).mpr hle
    refine ⟨?_, by simp, ?_⟩
    · simpa using Nat.mul_div_cancel' (Nat.dvd_of_mod_eq_zero hmod)
    · intro t htm
      obtain rfl : t = (s, target / s) := by simpa using htm
      exact ⟨hq, hdiv⟩
  | none =>
    rw [hfind] at h
    have hsub : ∀ l, twoPassAux scores target mp l = some terms →
        (terms.map (fun t => t.1 * t.2)).sum = target ∧
          terms.length ≤ 2 ∧ ∀ t ∈ terms, 1 ≤ t.2 ∧ t.2 ≤ mp := by
      intro l
      induction l with
      | nil => intro hh; simp [twoPassAux] at hh
      | cons s1 rest ih =>
        intro hh
        unfold twoPassAux at hh
        by_cases hgt : target < s1
        · rw [if_pos hgt] at hh; exact ih hh
        · rw [if_neg hgt] at hh
          cases hinner : twoInner scores target s1 (min (target / s1) mp) with
          | some sol =>
            rw [hinner] at hh
            obtain rfl : sol = terms := by simpa using hh
            obtain ⟨p1, hp1, hp2, hshape, _⟩ := twoInner_some_spec hinner
            have hs0 : 0 < s1 := by
              rcases Nat.eq_zero_or_pos s1 with rfl | hpos
              · simp at hp2; omega
              · exact hpos
            have hple : p1 ≤ target / s1 := le_trans hp2 (Nat.min_le_left _ _)
            have hmul : s1 * p1 ≤ target := by
              calc s1 * p1 ≤ s1 * (target / s1) := Nat.mul_le_mul_left s1 hple
                _ ≤ target := Nat.mul_div_le target s1
            have hpmp : p1 ≤ mp := le_trans hp2 (Nat.min_le_right _ _)
            rcases hshape with ⟨hz, rfl⟩ | ⟨hnz, _, rfl⟩
            · refine ⟨by simp; omega, by simp, ?_⟩
              intro t htm
              obtain rfl : t = (s1, p1) := by simpa using htm
              exact ⟨hp1, hpmp⟩
            · refine ⟨by simp; omega, by simp, ?_⟩
              intro t htm
              rcases List.mem_pair.mp htm with rfl | rfl
              · exact ⟨hp1, hpmp⟩
              · exact ⟨le_refl 1, le_trans hp1 hpmp⟩
          | none =>
            rw [hinner] at hh
            exact ih hh
    exact hsub scores h

/-- C4 witness: catalog [250, 150, 100], target 500: the single-value pass
returns [(250, 2)], and 250 is maximal among qualifying values. -/
theorem find_solution_single_pass_witness :
    find_solution [250, 150, 100] 500 50 = some [(250, 2)] ∧
    ∃ s ∈ [250, 150, 100], singleCond 500 50 s ∧
      find_solution [250, 150, 100] 500 50 = some [(s, 500 / s)] ∧
      ∀ t ∈ [250, 150, 100], singleCond 500 50 t → t ≤ s := by
  refine ⟨by decide, ?_⟩
  exact find_solution_single_pass [250, 150, 100] 500 50 (by decide) (by decide)
    ⟨250, by decide, by decide⟩

/-- C5 witness: catalog [140, 90], target 320: no single value qualifies
and the two-value pass returns [(90, 2), (140, 1)]. -/
theorem find_solution_two_pass_witness :
    find_solution [140, 90] 320 50 = some [(90, 2), (140, 1)] ∧
    ∃ s1 ∈ [140, 90], s1 ≤ 320 ∧ ∃ p1, 1 ≤ p1 ∧ p1 ≤ min (320 / s1) 50 ∧
      ((320 - s1 * p1 = 0 ∧ [((90 : ℕ), (2 : ℕ)), (140, 1)] = [(s1, p1)]) ∨
        (320 - s1 * p1 ≠ 0 ∧ (320 - s1 * p1) ∈ [140, 90] ∧
          [((90 : ℕ), (2 : ℕ)), (140, 1)] = [(s1, p1), (320 - s1 * p1, 1)])) ∧
      ∀ s' ∈ [140, 90], s' ≤ 320 → ∀ p', 1 ≤ p' → p' ≤ min (320 / s') 50 →
        (320 - s' * p' = 0 ∨ (320 - s' * p') ∈ [140, 90]) →
        s' < s1 ∨ (s' = s1 ∧ p' ≤ p1) := by
  refine ⟨by decide, ?_⟩
  exact find_solution_two_pass [140, 90] 320 50 (by decide) (by decide)
    (by decide) [(90, 2), (140, 1)] (by decide)

/-- C6 witness: the amended soundness evaluated on catalog [140, 90] and
target 320. -/
theorem find_solution_sound_witness :
    ((([((90 : ℕ), (2 : ℕ)), (140, 1)] : List SolTerm).map
        (fun t => t.1 * t.2)).sum = 320) ∧
      (([((90 : ℕ), (2 : ℕ)), (140, 1)] : List SolTerm).length ≤ 2) ∧
      ∀ t ∈ ([((90 : ℕ), (2 : ℕ)), (140, 1)] : List SolTerm), 1 ≤ t.2 ∧ t.2 ≤ 50 :=
  find_solution_sound [140, 90] 320 50 [(90, 2), (140, 1)] (by decide)

/-! ## ScheduleEngine (src/bot.py)

An applicant is the dictionary built at sign-up time (user_id, name,
bonus values, power values, multiplicity, role, note, registration
timestamp).  Registration timestamps are ISO strings, compared
lexicographically as Python does. -/

structure Applicant where
  user_id : String
  name : String
  bonus : ℚ
  bonus_2 : ℚ
  bonus_3 : ℚ
  s6_bonus : ℚ
  power : ℤ
  s6_power : ℤ
  multi : String
  role : String
  note : String
  registered_at : String
deriving DecidableEq

/-- The sort key -round(bonus * 50) / 50 of auto_assign_schedule:
bonus quantized to the nearest 1/50, negated so that higher bonus sorts
first. -/
def sortKey (a : Applicant) : ℚ := -(pythonRound (a.bonus * 50) : ℚ) / 50

/-- Strict comparison of the full Python sort key
(-round(bonus * 50) / 50, registered_at), lexicographically. -/
def appKeyLt (x y : Applicant) : Prop :=
  sortKey x < sortKey y ∨ (sortKey x = sortKey y ∧ x.registered_at < y.registered_at)

instance (x y : Applicant) : Decidable (appKeyLt x y) := by
  unfold appKeyLt; infer_instance

/-- The total preorder induced by the sort key, as used by the stable
sort. -/
def appLe (x y : Applicant) : Bool := !(decide (appKeyLt y x))

/-- sorted(applicants, key=sk) of auto_assign_schedule. -/
def sorted_applicants (l : List Applicant) : List Applicant := sortBy appLe l

/-- Number of accounts of a declared multiplicity:
{'單開': 1, '雙開': 2, '三開': 3}.get(multi, 1). -/
def multi_accs (m : String) : ℕ :=
  if m = "單開" then 1 else if m = "雙開" then 2 else if m = "三開" then 3 else 1

/-- The per-account bonus list ab of auto_assign_schedule: the primary
bonus, then bonus_2 or bonus, then bonus_3 or bonus (Python or: the
fallback applies exactly when the alternate value is 0). -/
def account_bonus (a : Applicant) : ℕ → ℚ
  | 0 => a.bonus
  | 1 => if a.bonus_2 = 0 then a.bonus else a.bonus_2
  | _ => if a.bonus_3 = 0 then a.bonus else a.bonus_3

/-- The copy of an applicant occupying its (ai+1)-th pusher position:
the bonus is the per-account bonus, and accounts after the first get a
suffixed display name. -/
def mk_account (a : Applicant) (ai : ℕ) : Applicant :=
  { a with
    bonus := account_bonus a ai
    name := if ai = 0 then a.name else a.name ++ "(" ++ toString (ai + 1) ++ "開)" }

/-- The pusher-filling loop of auto_assign_schedule: walk the sorted
pusher candidates, each consuming min(accounts, 3 - assigned) of the
three positions, stopping once 3 are assigned. -/
def pusher_fill : ℕ → List Applicant → List Applicant
  | _, [] => []
  | assigned, a :: rest =>
    if 3 ≤ assigned then []
    else
      let k := min (multi_accs a.multi) (3 - assigned)
      (List.range k).map (mk_account a) ++ pusher_fill (assigned + k) rest

/-- Membership test for the general-pusher partition:
role not in ['s6', 'support']. -/
def pusherPred (a : Applicant) : Bool := !(a.role == "s6" || a.role == "support")

/-- The sorted general-pusher candidate list psa of auto_assign_schedule. -/
def pusher_cands (l : List Applicant) : List Applicant :=
  (sorted_applicants l).filter pusherPred

/-- The fixed p1 slot value {"name": "omega", "fixed": True}. -/
structure P1Slot where
  name : String
  fixed : Bool
deriving DecidableEq

/-- The shift dictionary built by auto_assign_schedule. -/
structure Shift where
  car_type : String
  p1 : P1Slot
  p2 : Option Applicant
  p3 : Option Applicant
  p4 : Option Applicant
  p5 : Option Applicant
  support : Option Applicant
  avg_bonus : ℚ
  note : String
deriving DecidableEq

/-- The body of auto_assign_schedule on a non-empty applicant list. -/
def build_shift (applicants : List Applicant) : Shift :=
  let sa := sorted_applicants applicants
  let s6a := sa.filter (fun a => a.role == "s6")
  let spa := sa.filter (fun a => a.role == "support")
  let occ := pusher_fill 0 (pusher_cands applicants)
  let bs := ([occ[0]?, occ[1]?, occ[2]?].filterMap id).map (fun a => a.bonus)
  { car_type := "蝦"
    p1 := ⟨"omega", true⟩
    p2 := s6a.head?.map (fun s6 =>
      if 0 < s6.s6_bonus then { s6 with bonus := s6.s6_bonus } else s6)
    p3 := occ[0]?
    p4 := occ[1]?
    p5 := occ[2]?
    support := spa.head?
    avg_bonus := if bs.length = 0 then 0 else bs.sum / (bs.length : ℚ)
    note := "" }

/-- auto_assign_schedule (src/bot.py); the source returns an empty
dictionary on an empty applicant list (callers only invoke it with a
non-empty one), modelled as none. -/
def auto_assign_schedule (applicants : List Applicant) : Option Shift :=
  if applicants.isEmpty then none else some (build_shift applicants)

/-- A stored schedule entry: the shift dictionary together with its
durable applicants list. -/
structure StoredShift extends Shift where
  applicants : List Applicant
deriving DecidableEq

/-- One hour of refresh_schedule (src/bot.py): when the hour has
applicants, re-run auto_assign_schedule and merge the fresh shift over
the stored entry (dict.update overwrites every shift key, and the
applicants list is kept). -/
def refresh_hour (old : StoredShift) : StoredShift :=
  match auto_assign_schedule old.applicants with
  | none => old
  | some sh => { toShift := sh, applicants := old.applicants }

/-- is_signup_closed (src/bot.py).  The hour label HH:00 is modelled by
its hour number sh; now is the current moment in fractional hours from
today's midnight; has_s6 tells whether the slot's p2 (S6) position is
currently occupied in the stored schedule. -/
def is_signup_closed (sh : ℕ) (now : ℚ) (has_s6 : Bool) : Bool × String :=
  let st0 : ℚ := sh
  let st : ℚ := if st0 < now - 12 then st0 + 24 else st0
  let hu : ℚ := st - now
  if hu ≤ 1 then (true, two_digit sh ++ ":00 已截止（前1h）")
  else if hu ≤ 2 ∧ has_s6 = true then (true, two_digit sh ++ ":00 已截止（前2h，S6到位）")
  else (false, "")

/-- C1: the closing-window check rolls the slot start forward one day
exactly when today's instant of hour sh is more than 12 hours in the
past, and closes the slot iff the fractional hours until the start are
at most 1, or at most 2 with the S6 position filled; the 1-hour boundary
is inclusive and 1.01 hours (S6 empty) is open. -/
theorem is_signup_closed_spec (sh : ℕ) (now : ℚ) (has_s6 : Bool)
    (hsh : sh < 24) (h0 : 0 ≤ now) (h24 : now < 24) :
    ((is_signup_closed sh now has_s6).1 = true ↔
      ((if (sh : ℚ) < now - 12 then (sh : ℚ) + 24 else (sh : ℚ)) - now ≤ 1 ∨
        ((if (sh : ℚ) < now - 12 then (sh : ℚ) + 24 else (sh : ℚ)) - now ≤ 2 ∧
          has_s6 = true))) ∧
    ((if (sh : ℚ) < now - 12 then (sh : ℚ) + 24 else (sh : ℚ)) - now = 1 →
      (is_signup_closed sh now has_s6).1 = true) ∧
    ((if (sh : ℚ) < now - 12 then (sh : ℚ) + 24 else (sh : ℚ)) - now = 101 / 100 →
      has_s6 = false → (is_signup_closed sh now has_s6).1 = false) := by
  simp only [is_signup_closed]
  refine ⟨?_, ?_, ?_⟩
  · by_cases h1 : (if (sh : ℚ) < now - 12 then (sh : ℚ) + 24 else (sh : ℚ)) - now ≤ 1
    · rw [if_pos h1]
      exact ⟨fun _ => Or.inl h1, fun _ => rfl⟩
    · rw [if_neg h1]
      by_cases h2 : (if (sh : ℚ) < now - 12 then (sh : ℚ) + 24 else (sh : ℚ)) - now ≤ 2 ∧
          has_s6 = true
      · rw [if_pos h2]
        exact ⟨fun _ => Or.inr h2, fun _ => rfl⟩
      · rw [if_neg h2]
        exact ⟨fun hh => absurd hh Bool.false_ne_true,
          fun hh => hh.elim (fun c => absurd c h1) (fun c => absurd c h2)⟩
  · intro h1
    rw [if_pos (le_of_eq h1)]
  · intro h1 h6
    have hn1 : ¬(if (sh : ℚ) < now - 12 then (sh : ℚ) + 24 else (sh : ℚ)) - now ≤ 1 := by
      rw [h1]; norm_num
    have hn2 : ¬((if (sh : ℚ) < now - 12 then (sh : ℚ) + 24 else (sh : ℚ)) - now ≤ 2 ∧
        has_s6 = true) := by
      rintro ⟨-, hh⟩; rw [h6] at hh; exact Bool.false_ne_true hh
    rw [if_neg hn1, if_neg hn2]

theorem pusher_fill_length_le : ∀ (l : List Applicant) (n : ℕ), (pusher_fill n l).length ≤ 3 - n := by
  intro l
  induction l with
  | nil => intro n; simp [pusher_fill]
  | cons a rest ih =>
    intro n
    unfold pusher_fill
    by_cases h3 : 3 ≤ n
    · rw [if_pos h3]; simp
    · rw [if_neg h3]
      have hk : min (multi_accs a.multi) (3 - n) ≤ 3 - n := Nat.min_le_right _ _
      have := ih (n + min (multi_accs a.multi) (3 - n))
      simp only [List.length_append, List.length_map, List.length_range]
      omega

theorem pusher_fill_of_three_le (l : List Applicant) (n : ℕ) (h : 3 ≤ n) :
    pusher_fill n l = [] := by
  cases l with
  | nil => rfl
  | cons a rest => unfold pusher_fill; rw [if_pos h]

theorem pusher_fill_cons (a : Applicant) (l : List Applicant) (n : ℕ) (h : n < 3) :
    pusher_fill n (a :: l) =
      (List.range (min (multi_accs a.multi) (3 - n))).map (mk_account a) ++
        pusher_fill (n + min (multi_accs a.multi) (3 - n)) l := by
  simp only [pusher_fill]
  rw [if_neg (by omega)]

/-- C3: a shift produced by auto_assign_schedule stores in avg_bonus the
arithmetic mean of the bonus values occupying its pusher slots p3-p5
(empty slots excluded), and 0 when none is occupied. -/
theorem auto_assign_avg_bonus (applicants : List Applicant) (shift : Shift)
    (h : auto_assign_schedule applicants = some shift) :
    shift.avg_bonus =
      (if (([shift.p3, shift.p4, shift.p5].filterMap id).map (fun a => a.bonus)).length = 0
        then 0
        else (([shift.p3, shift.p4, shift.p5].filterMap id).map (fun a => a.bonus)).sum /
          ((([shift.p3, shift.p4, shift.p5].filterMap id).map (fun a => a.bonus)).length : ℚ)) := by
  unfold auto_assign_schedule at h
  by_cases he : applicants.isEmpty
  · rw [if_pos he] at h; exact absurd h (by simp)
  · rw [if_neg he] at h
    obtain rfl : build_shift applicants = shift := by simpa using h
    rfl

/-- C2 (amended): the pusher loop fills at most 3 positions, assigning
p3-p5 from the filled-occupant list in order; each candidate, taken in
sorted order, consumes min(multiplicity, positions remaining) positions;
occupants after the first carry the candidate's secondary/tertiary bonus
value, falling back to the primary bonus when that value is 0, and a
display name with an account-index suffix; and a triple-multiplicity
candidate that is first in sort order alone fills all three positions. -/
theorem auto_assign_pushers (applicants : List Applicant) (shift : Shift)
    (h : auto_assign_schedule applicants = some shift) :
    (pusher_fill 0 (pusher_cands applicants)).length ≤ 3 ∧
    shift.p3 = (pusher_fill 0 (pusher_cands applicants))[0]? ∧
    shift.p4 = (pusher_fill 0 (pusher_cands applicants))[1]? ∧
    shift.p5 = (pusher_fill 0 (pusher_cands applicants))[2]? ∧
    (∀ (a : Applicant) (l : List Applicant) (n : ℕ), n < 3 →
      pusher_fill n (a :: l) =
        (List.range (min (multi_accs a.multi) (3 - n))).map (mk_account a) ++
          pusher_fill (n + min (multi_accs a.multi) (3 - n)) l) ∧
    (∀ a : Applicant,
      (mk_account a 1).bonus = (if a.bonus_2 = 0 then a.bonus else a.bonus_2) ∧
      (mk_account a 1).name = a.name ++ "(" ++ toString 2 ++ "開)" ∧
      (mk_account a 2).bonus = (if a.bonus_3 = 0 then a.bonus else a.bonus_3) ∧
      (mk_account a 2).name = a.name ++ "(" ++ toString 3 ++ "開)") ∧
    (∀ (a : Applicant) (l : List Applicant),
      pusher_cands applicants = a :: l → a.multi = "三開" →
      pusher_fill 0 (pusher_cands applicants) =
        [mk_account a 0, mk_account a 1, mk_account a 2]) := by
  have hshift : build_shift applicants = shift := by
    unfold auto_assign_schedule at h
    by_cases he : applicants.isEmpty
    · rw [if_pos he] at h; exact absurd h (by simp)
    · rw [if_neg he] at h; simpa using h
  subst hshift
  refine ⟨by simpa using pusher_fill_length_le (pusher_cands applicants) 0,
    rfl, rfl, rfl, pusher_fill_cons, fun a => ⟨rfl, rfl, rfl, rfl⟩, ?_⟩
  intro a l hpc ha
  rw [hpc, pusher_fill_cons a l 0 (by omega), ha]
  show (List.range (min (multi_accs "三開") 3)).map (mk_account a) ++
      pusher_fill (0 + min (multi_accs "三開") 3) l = _
  have hm : multi_accs "三開" = 3 := rfl
  rw [hm]
  rw [pusher_fill_of_three_le l (0 + min 3 3) (by omega)]
  simp [List.range_succ]

/-- C10: whenever an hour's applicant list is non-empty, the refresh step
installs the freshly built shift over the stored entry: the stored
car_type reverts to the default and the note to the empty string, and
only the applicants list and the freshly derived role slots remain. -/
theorem refresh_overwrites (old : StoredShift) (h : old.applicants ≠ []) :
    refresh_hour old =
      { toShift := build_shift old.applicants, applicants := old.applicants } ∧
    (refresh_hour old).car_type = "蝦" ∧
    (refresh_hour old).note = "" ∧
    (refresh_hour old).applicants = old.applicants := by
  have he : old.applicants.isEmpty = false := by
    simpa [List.isEmpty_iff] using h
  have hr : refresh_hour old =
      { toShift := build_shift old.applicants, applicants := old.applicants } := by
    unfold refresh_hour auto_assign_schedule
    rw [he]
    rfl
  exact ⟨hr, by rw [hr]; rfl, by rw [hr]; rfl, by rw [hr]⟩

/-- C1 witness: at 09:00, the 10:00 slot (exactly 1.0h away) is closed;
at 8.99h (the slot 1.01h away) with no S6 occupant it is open. -/
theorem is_signup_closed_witness :
    (is_signup_closed 10 9 false).1 = true ∧
    (is_signup_closed 10 (899 / 100) false).1 = false := by
  have h1 := is_signup_closed_spec 10 9 false (by norm_num) (by norm_num) (by norm_num)
  have h2 := is_signup_closed_spec 10 (899 / 100) false (by norm_num) (by norm_num)
    (by norm_num)
  exact ⟨h1.2.1 (by norm_num), h2.2.2 (by norm_num) rfl⟩

/-- Example applicant: a single-account pusher with bonus 2.0. -/
def appA : Applicant :=
  { user_id := "u1", name := "alice", bonus := 2, bonus_2 := 0, bonus_3 := 0,
    s6_bonus := 0, power := 0, s6_power := 0, multi := "單開", role := "pusher",
    note := "", registered_at := "2026-10-12T01:00:00" }

/-- Example applicant: a single-account pusher with bonus 2.4. -/
def appB : Applicant :=
  { user_id := "u2", name := "bob", bonus := 2.4, bonus_2 := 0, bonus_3 := 0,
    s6_bonus := 0, power := 0, s6_power := 0, multi := "單開", role := "pusher",
    note := "", registered_at := "2026-10-12T02:00:00" }

/-- Example applicant: a triple-account pusher with distinct per-account
bonuses. -/
def appT : Applicant :=
  { user_id := "u3", name := "toby", bonus := 3, bonus_2 := 2.5, bonus_3 := 2,
    s6_bonus := 0, power := 0, s6_power := 0, multi := "三開", role := "pusher",
    note := "", registered_at := "2026-10-12T03:00:00" }

/-- Example applicant: a double-account pusher whose secondary bonus is
unset (0). -/
def appD : Applicant :=
  { user_id := "u4", name := "dana", bonus := 2, bonus_2 := 0, bonus_3 := 0,
    s6_bonus := 0, power := 0, s6_power := 0, multi := "雙開", role := "pusher",
    note := "", registered_at := "2026-10-12T04:00:00" }

/-- The shift auto-assigned from [appA, appB]. -/
def shiftAB : Shift :=
  { car_type := "蝦", p1 := ⟨"omega", true⟩, p2 := none, p3 := some appB,
    p4 := some appA, p5 := none, support := none, avg_bonus := 2.2, note := "" }

/-- The shift auto-assigned from [appT]. -/
def shiftT : Shift :=
  { car_type := "蝦", p1 := ⟨"omega", true⟩, p2 := none, p3 := some (mk_account appT 0),
    p4 := some (mk_account appT 1), p5 := some (mk_account appT 2), support := none,
    avg_bonus := 2.5, note := "" }

/-- C3 witness: occupants with bonuses 2.4 and 2.0 give average 2.2. -/
theorem auto_assign_avg_bonus_witness :
    auto_assign_schedule [appA, appB] = some shiftAB ∧
    shiftAB.avg_bonus =
      (if (([shiftAB.p3, shiftAB.p4, shiftAB.p5].filterMap id).map (fun a => a.bonus)).length = 0
        then 0
        else (([shiftAB.p3, shiftAB.p4, shiftAB.p5].filterMap id).map (fun a => a.bonus)).sum /
          ((([shiftAB.p3, shiftAB.p4, shiftAB.p5].filterMap id).map (fun a => a.bonus)).length : ℚ)) ∧
    shiftAB.avg_bonus = 2.2 := by
  have hEval : auto_assign_schedule [appA, appB] = some shiftAB := by
    norm_num +decide [auto_assign_schedule, build_shift, sorted_applicants, sortBy, insertBy, appLe,
      appKeyLt, sortKey, pythonRound, appA, appB, shiftAB, pusher_cands, pusherPred,
      pusher_fill, mk_account, account_bonus, multi_accs, List.range_succ,
      List.filterMap_cons]
  exact ⟨hEval, auto_assign_avg_bonus [appA, appB] shiftAB hEval, by norm_num [shiftAB]⟩

/-- C2 witness: the triple applicant appT, first (and alone) in sort
order, fills all three pusher positions with its three accounts. -/
theorem auto_assign_pushers_witness :
    auto_assign_schedule [appT] = some shiftT ∧
    pusher_fill 0 (pusher_cands [appT]) =
      [mk_account appT 0, mk_account appT 1, mk_account appT 2] ∧
    shiftT.p3 = some (mk_account appT 0) ∧
    shiftT.p4 = some (mk_account appT 1) ∧
    shiftT.p5 = some (mk_account appT 2) ∧
    (mk_account appT 1).name = "toby(2開)" ∧
    (mk_account appT 1).bonus = 2.5 := by
  have hpc : pusher_cands [appT] = [appT] := by
    norm_num +decide [pusher_cands, sorted_applicants, sortBy, insertBy, pusherPred, appT]
  have hEval : auto_assign_schedule [appT] = some shiftT := by
    norm_num +decide [auto_assign_schedule, build_shift, sorted_applicants, sortBy, insertBy, appLe,
      appKeyLt, sortKey, pythonRound, appT, shiftT, pusher_cands, pusherPred,
      pusher_fill, mk_account, account_bonus, multi_accs, List.range_succ,
      List.filterMap_cons]
  have hmain := auto_assign_pushers [appT] shiftT hEval
  have htriple := hmain.2.2.2.2.2.2 appT [] hpc rfl
  refine ⟨hEval, htriple, ?_, ?_, ?_, by decide, by norm_num [mk_account, account_bonus, appT]⟩
  · rw [hmain.2.1, htriple]; rfl
  · rw [hmain.2.2.1, htriple]; rfl
  · rw [hmain.2.2.2.1, htriple]; rfl

/-- C2 counterexample: for a double-account pusher whose secondary bonus
field is 0, the second occupant carries the primary bonus 2, not the
candidate's secondary bonus value 0, refuting the unqualified claim. -/
theorem auto_assign_secondary_counterexample :
    (auto_assign_schedule [appD]).map (fun s => s.p4.map (fun a => a.bonus)) =
      some (some 2) ∧
    appD.bonus_2 = 0 ∧ ¬((2 : ℚ) = appD.bonus_2) := by
  refine ⟨?_, rfl, by norm_num [appD]⟩
  norm_num +decide [auto_assign_schedule, build_shift, sorted_applicants, sortBy, insertBy, appLe,
    appKeyLt, sortKey, pythonRound, appD, pusher_cands, pusherPred,
    pusher_fill, mk_account, account_bonus, multi_accs, List.range_succ]

/-- A stored schedule entry whose car_type and note were edited by hand. -/
def oldStored : StoredShift :=
  { car_type := "狼", p1 := ⟨"omega", true⟩, p2 := none, p3 := none, p4 := none,
    p5 := none, support := none, avg_bonus := 0, note := "manual note",
    applicants := [appA] }

/-- C10 witness: refreshing a stored entry with a non-empty applicant
list resets its hand-edited car_type and note to the defaults. -/
theorem refresh_overwrites_witness :
    oldStored.car_type = "狼" ∧ oldStored.note = "manual note" ∧
    (refresh_hour oldStored).car_type = "蝦" ∧
    (refresh_hour oldStored).note = "" ∧
    (refresh_hour oldStored).applicants = [appA] := by
  have hmain := refresh_overwrites oldStored (by simp [oldStored])
  exact ⟨rfl, rfl, hmain.2.1, hmain.2.2.1, by rw [hmain.2.2.2]; rfl⟩

/-! ## PlanSearch: find_push_plans (src/render_funcs.py)

The song/difficulty/energy triple loop computes a per-repetition EP value
from the difficulty coefficient vector, the participant power and the
skill multipliers (calc_song_score and calc_ep_value, plain arithmetic no
claim touches); a plan candidate is modelled at the point where that
integer EP and the song seconds are known.  The claims below concern the
catch-up adjustment against a climbing border and the ranked-result
selection, which depend only on these values. -/

/-- ENERGY_MULTIPLIERS.get(energy, 1). -/
def energy_multiplier (e : ℕ) : ℕ :=
  if e = 0 then 1 else if e = 1 then 5 else if e = 2 then 10 else if e = 3 then 15
  else if e = 4 then 20 else if e = 5 then 25 else if e = 6 then 27 else if e = 7 then 29
  else if e = 8 then 31 else if e = 9 then 33 else if e = 10 then 35 else 1

/-- A plan candidate: one (song, difficulty, energy) combination with its
computed per-repetition score and EP value. -/
structure PlanCand where
  id : ℕ
  title : String
  diff : String
  lv : ℤ
  stime : ℚ
  rate : ℚ
  score : ℤ
  energy : ℕ
  ep : ℤ
deriving DecidableEq

/-- The result dictionary appended to by_energy in find_push_plans. -/
structure PlanItem where
  title : String
  id : ℕ
  diff : String
  lv : ℤ
  time : ℚ
  rate : ℚ
  energy : ℕ
  boost : ℕ
  ep : ℤ
  eph : ℤ
  plays : ℤ
  time_min : ℚ
  stamina : ℤ
  score : ℤ
  adj_plays : ℤ
  adj_time_min : ℚ
  adj_stamina : ℤ
  catchable : Bool
deriving DecidableEq

/-- One candidate body of find_push_plans: none for the continue guards
(non-positive song time, non-positive EP); otherwise the plays, times and
stamina, with the catch-up adjustment when the border climbs
(border_speed greater than 0). -/
def mk_plan_item (gap border interval : ℚ) (c : PlanCand) : Option PlanItem :=
  if c.stime ≤ 0 then none
  else if c.ep ≤ 0 then none
  else
    let boost := energy_multiplier c.energy
    let cycle : ℚ := c.stime + interval
    let eph : ℚ := (c.ep : ℚ) * (3600 / cycle)
    let plays : ℤ := ⌈gap / (c.ep : ℚ)⌉
    let time_min : ℚ := (plays : ℚ) * cycle / 60
    let stamina : ℤ := plays * (c.energy : ℤ)
    if 0 < border then
      let net_ep : ℚ := (c.ep : ℚ) - border * (cycle / 3600)
      if net_ep ≤ 0 then
        some { title := c.title, id := c.id, diff := c.diff, lv := c.lv, time := c.stime,
               rate := c.rate, energy := c.energy, boost := boost, ep := c.ep,
               eph := pythonRound eph, plays := plays, time_min := roundTo1 time_min,
               stamina := stamina, score := c.score, adj_plays := 99999,
               adj_time_min := roundTo1 99999, adj_stamina := 99999, catchable := false }
      else
        let ap : ℤ := ⌈gap / net_ep⌉
        some { title := c.title, id := c.id, diff := c.diff, lv := c.lv, time := c.stime,
               rate := c.rate, energy := c.energy, boost := boost, ep := c.ep,
               eph := pythonRound eph, plays := plays, time_min := roundTo1 time_min,
               stamina := stamina, score := c.score, adj_plays := ap,
               adj_time_min := roundTo1 ((ap : ℚ) * cycle / 60),
               adj_stamina := ap * (c.energy : ℤ), catchable := true }
    else
      some { title := c.title, id := c.id, diff := c.diff, lv := c.lv, time := c.stime,
             rate := c.rate, energy := c.energy, boost := boost, ep := c.ep,
             eph := pythonRound eph, plays := plays, time_min := roundTo1 time_min,
             stamina := stamina, score := c.score, adj_plays := plays,
             adj_time_min := roundTo1 time_min, adj_stamina := stamina, catchable := true }

/-- The per-tier sort key (-catchable, adj_plays, -eph); Python bools
negate to -1 and 0, so catchable entries sort first. -/
def plan_key (r : PlanItem) : ℤ × ℤ × ℤ :=
  ((if r.catchable then -1 else 0), r.adj_plays, -r.eph)

/-- Strict lexicographic comparison of plan sort keys. -/
def planKeyLt (x y : PlanItem) : Prop :=
  (plan_key x).1 < (plan_key y).1 ∨ ((plan_key x).1 = (plan_key y).1 ∧
    ((plan_key x).2.1 < (plan_key y).2.1 ∨ ((plan_key x).2.1 = (plan_key y).2.1 ∧
      (plan_key x).2.2 < (plan_key y).2.2)))

instance (x y : PlanItem) : Decidable (planKeyLt x y) := by
  unfold planKeyLt; infer_instance

/-- The total preorder induced by the plan sort key. -/
def planLe (x y : PlanItem) : Bool := !(decide (planKeyLt y x))

/-- The per-tier selection loop of find_push_plans: skip non-catchable
entries, deduplicate by (song id, difficulty), stop after top_n picks. -/
def select_plans : ℕ → List (ℕ × String) → ℕ → List PlanItem → List PlanItem
  | _, _, _, [] => []
  | top_n, seen, count, r :: rest =>
    if r.catchable = false then select_plans top_n seen count rest
    else if (r.id, r.diff) ∈ seen then select_plans top_n seen count rest
    else if top_n ≤ count + 1 then [r]
    else r :: select_plans top_n ((r.id, r.diff) :: seen) (count + 1) rest

/-- find_push_plans (src/render_funcs.py), from the candidate list on:
group candidates by energy option, build the per-candidate items, sort
each tier and run the selection loop, concatenating tiers in
energy-option order. -/
def find_push_plans (gap border interval : ℚ) (top_n : ℕ) (energy_options : List ℕ)
    (cands : List PlanCand) : List PlanItem :=
  (energy_options.map (fun e =>
    select_plans top_n [] 0 (sortBy planLe
      ((cands.filter (fun c => c.energy == e)).filterMap
        (mk_plan_item gap border interval))))).flatten

theorem select_plans_catchable (tn : ℕ) :
    ∀ (items : List PlanItem) (seen : List (ℕ × String)) (cnt : ℕ) (r : PlanItem),
      r ∈ select_plans tn seen cnt items → r.catchable = true := by
  intro items
  induction items with
  | nil => intro seen cnt r h; simp [select_plans] at h
  | cons r0 rest ih =>
    intro seen cnt r h
    unfold select_plans at h
    by_cases hc : r0.catchable = false
    · rw [if_pos hc] at h; exact ih seen cnt r h
    · rw [if_neg hc] at h
      by_cases hs : (r0.id, r0.diff) ∈ seen
      · rw [if_pos hs] at h; exact ih seen cnt r h
      · rw [if_neg hs] at h
        by_cases ht : tn ≤ cnt + 1
        · rw [if_pos ht] at h
          obtain rfl : r = r0 := by simpa using h
          simpa using hc
        · rw [if_neg ht] at h
          rcases List.mem_cons.mp h with rfl | hm
          · simpa using hc
          · exact ih _ _ r hm

/-- C7: against a climbing border (border speed above 0), a candidate
whose net EP value (EP minus the border climb per cycle) is not positive
is marked not catchable, and the ranked results contain only catchable
entries; a candidate with positive net EP has its repetitions, elapsed
time and stamina recomputed from the net value. -/
theorem find_push_plans_catchup (gap border interval : ℚ) (top_n : ℕ)
    (eos : List ℕ) (cands : List PlanCand) (hb : 0 < border) :
    (∀ c item, mk_plan_item gap border interval c = some item →
      (((c.ep : ℚ) - border * ((c.stime + interval) / 3600) ≤ 0 →
        item.catchable = false) ∧
      (0 < (c.ep : ℚ) - border * ((c.stime + interval) / 3600) →
        item.catchable = true ∧
        item.adj_plays = ⌈gap / ((c.ep : ℚ) - border * ((c.stime + interval) / 3600))⌉ ∧
        item.adj_stamina = item.adj_plays * (c.energy : ℤ) ∧
        item.adj_time_min = roundTo1 ((item.adj_plays : ℚ) * (c.stime + interval) / 60)))) ∧
    (∀ r ∈ find_push_plans gap border interval top_n eos cands, r.catchable = true) := by
  constructor
  · intro c item h
    unfold mk_plan_item at h
    by_cases h1 : c.stime ≤ 0
    · rw [if_pos h1] at h; exact absurd h (by simp)
    rw [if_neg h1] at h
    by_cases h2 : c.ep ≤ 0
    · rw [if_pos h2] at h; exact absurd h (by simp)
    rw [if_neg h2, if_pos hb] at h
    by_cases h3 : (c.ep : ℚ) - border * ((c.stime + interval) / 3600) ≤ 0
    · rw [if_pos h3] at h
      obtain rfl := (Option.some.injEq ..).mp h.symm
      exact ⟨fun _ => rfl, fun hpos => absurd h3 (not_le.mpr hpos)⟩
    · rw [if_neg h3] at h
      obtain rfl := (Option.some.injEq ..).mp h.symm
      exact ⟨fun hle => absurd hle h3, fun _ => ⟨rfl, rfl, rfl, rfl⟩⟩
  · intro r hr
    unfold find_push_plans at hr
    rw [List.mem_flatten] at hr
    obtain ⟨l, hl, hrl⟩ := hr
    rw [List.mem_map] at hl
    obtain ⟨e, -, rfl⟩ := hl
    exact select_plans_catchable top_n _ [] 0 r hrl

/-- Example plan candidate: point value 1000, song seconds 70 (cycle 120
with the 50-second interval), facing border speed 40000. -/
def candW : PlanCand :=
  { id := 1, title := "song", diff := "master", lv := 30, stime := 70, rate := 100,
    score := 0, energy := 5, ep := 1000 }

/-- The item built from candW against border speed 40000 and gap 10000. -/
def itemW : PlanItem :=
  { title := "song", id := 1, diff := "master", lv := 30, time := 70, rate := 100,
    energy := 5, boost := 25, ep := 1000, eph := 30000, plays := 10, time_min := 20,
    stamina := 50, score := 0, adj_plays := 99999, adj_time_min := 99999,
    adj_stamina := 99999, catchable := false }

/-- C7 witness: point value 1000 with cycle 120 against border speed
40000 has net EP 1000 - 40000 * 120 / 3600 below 0, is marked not
catchable, and the ranked results exclude it. -/
theorem find_push_plans_catchup_witness :
    mk_plan_item 10000 40000 50 candW = some itemW ∧
    (candW.ep : ℚ) - 40000 * ((candW.stime + 50) / 3600) ≤ 0 ∧
    itemW.catchable = false ∧
    find_push_plans 10000 40000 50 10 [5] [candW] = [] := by
  have hnet : (candW.ep : ℚ) - 40000 * ((candW.stime + 50) / 3600) ≤ 0 := by
    norm_num [candW]
  have hEval : mk_plan_item 10000 40000 50 candW = some itemW := by
    norm_num +decide [mk_plan_item, energy_multiplier, candW, itemW, pythonRound, roundTo1]
  have hmain := find_push_plans_catchup 10000 40000 50 10 [5] [candW] (by norm_num)
  refine ⟨hEval, hnet, (hmain.1 candW itemW hEval).1 hnet, ?_⟩
  norm_num +decide [find_push_plans, sortBy, insertBy, select_plans, hEval,
    List.filterMap_cons]

/-! ## SnapshotStore: record_ranking_snapshot (src/bot.py)

The fetched top-100 list is a list of (rank, name, score) entries rows
with a falsy rank (0, standing in for a missing one) are skipped when
building the borders mapping.  The formatted timestamp string
"%Y-%m-%d %H:00" is modelled as a character list; the dedup check tests
whether the last stored record's time starts with the first 13 characters
(the "%Y-%m-%d %H" part) of the current timestamp. -/

structure RankEntry where
  rank : ℕ
  name : String
  score : ℤ
deriving DecidableEq

/-- One stored snapshot: formatted hour timestamp, event name, and the
rank to (name, score) rows. -/
structure RSnapshot where
  time : List Char
  event : String
  borders : List (ℕ × String × ℤ)
deriving DecidableEq

/-- The ranking_history store: the current event name and the stored
records, oldest first. -/
structure RankingHistory where
  event_name : String
  records : List RSnapshot
deriving DecidableEq

/-- The snapshot dictionary built from one fetch. -/
def mk_snapshot (now_str : List Char) (event_name : String)
    (rankings : List RankEntry) : RSnapshot :=
  { time := now_str, event := event_name,
    borders := rankings.filterMap (fun p =>
      if p.rank = 0 then none else some (p.rank, p.name, p.score)) }

/-- record_ranking_snapshot (src/bot.py), after a successful fetch:
update the stored event name, skip when the last record's time starts
with the current hour's 13-character stamp, otherwise append and keep
only the newest 336 records. -/
def record_ranking_snapshot (hist : RankingHistory) (now_str : List Char)
    (event_name : String) (rankings : List RankEntry) : RankingHistory :=
  if rankings.isEmpty then hist
  else
    let hist1 : RankingHistory := { hist with event_name := event_name }
    if (hist1.records.getLast?.map
        (fun r => (now_str.take 13).isPrefixOf r.time)).getD false then hist1
    else
      let records := hist1.records ++ [mk_snapshot now_str event_name rankings]
      { hist1 with
        records := if 336 < records.length then records.drop (records.length - 336)
          else records }

theorem take_isPrefixOf_self : ∀ (l : List Char) (n : ℕ), (l.take n).isPrefixOf l = true := by
  intro l
  induction l with
  | nil => intro n; cases n <;> rfl
  | cons a t ih =>
    intro n
    cases n with
    | zero => rfl
    | succ m => simpa [List.isPrefixOf] using ih m

/-- Skipping helper: when the last stored record's time starts with the
current hour stamp, an append with a non-empty fetch leaves the record
list unchanged. -/
theorem record_skip (hist : RankingHistory) (now : List Char) (ev : String)
    (rk : List RankEntry) (hne : rk ≠ [])
    (hmatch : (hist.records.getLast?.map
      (fun r => (now.take 13).isPrefixOf r.time)).getD false = true) :
    (record_ranking_snapshot hist now ev rk).records = hist.records := by
  have he : rk.isEmpty = false := by simpa [List.isEmpty_iff] using hne
  unfold record_ranking_snapshot
  rw [he]
  simp only [Bool.false_eq_true, if_false, hmatch, if_true]

/-- C8: two successive appends whose timestamps agree on the truncated
hour leave exactly one record with that hour stamp, namely the first
one's, and the second append leaves the record list unchanged. -/
theorem snapshot_dedup (hist : RankingHistory) (now1 now2 : List Char) (ev1 ev2 : String)
    (rk1 rk2 : List RankEntry) (h1 : rk1 ≠ []) (h2 : rk2 ≠ [])
    (hsame : now1.take 13 = now2.take 13)
    (hfresh : ∀ r ∈ hist.records, (now1.take 13).isPrefixOf r.time = false) :
    (record_ranking_snapshot (record_ranking_snapshot hist now1 ev1 rk1)
        now2 ev2 rk2).records =
      (record_ranking_snapshot hist now1 ev1 rk1).records ∧
    ((record_ranking_snapshot hist now1 ev1 rk1).records.filter
        (fun r => (now1.take 13).isPrefixOf r.time)) =
      [mk_snapshot now1 ev1 rk1] := by
  have he1 : rk1.isEmpty = false := by simpa [List.isEmpty_iff] using h1
  have hlast : (hist.records.getLast?.map
      (fun r => (now1.take 13).isPrefixOf r.time)).getD false = false := by
    cases hl : hist.records.getLast? with
    | none => rfl
    | some r =>
      have hr : r ∈ hist.records := List.mem_of_getLast?_eq_some hl
      simp [hfresh r hr]
  have hrec1 : (record_ranking_snapshot hist now1 ev1 rk1).records =
      hist.records.drop
          (if 336 < (hist.records ++ [mk_snapshot now1 ev1 rk1]).length
            then (hist.records ++ [mk_snapshot now1 ev1 rk1]).length - 336 else 0) ++
        [mk_snapshot now1 ev1 rk1] := by
    unfold record_ranking_snapshot
    rw [he1]
    simp only [Bool.false_eq_true, if_false, hlast]
    by_cases hlen : 336 < (hist.records ++ [mk_snapshot now1 ev1 rk1]).length
    · rw [if_pos hlen, if_pos hlen]
      rw [List.drop_append_of_le_length]
      simp only [List.length_append, List.length_cons, List.length_nil] at hlen ⊢
      omega
    · rw [if_neg hlen, if_neg hlen]
      simp
  have hsnap1 : ((now2.take 13).isPrefixOf (mk_snapshot now1 ev1 rk1).time) = true := by
    rw [show (mk_snapshot now1 ev1 rk1).time = now1 from rfl, ← hsame]
    exact take_isPrefixOf_self now1 13
  constructor
  · refine record_skip _ now2 ev2 rk2 h2 ?_
    rw [hrec1, List.getLast?_concat]
    simp [hsnap1]
  · rw [hrec1, List.filter_append]
    have hdropped : (hist.records.drop
        (if 336 < (hist.records ++ [mk_snapshot now1 ev1 rk1]).length
          then (hist.records ++ [mk_snapshot now1 ev1 rk1]).length - 336 else 0)).filter
        (fun r => (now1.take 13).isPrefixOf r.time) = [] := by
      rw [List.filter_eq_nil_iff]
      intro r hr
      simp [hfresh r (List.drop_subset _ _ hr)]
    have hsnap1a : ((now1.take 13).isPrefixOf (mk_snapshot now1 ev1 rk1).time) = true :=
      take_isPrefixOf_self now1 13
    rw [hdropped, List.filter_cons, if_pos hsnap1a]
    rfl

/-- An empty snapshot store. -/
def histEmpty : RankingHistory := { event_name := "", records := [] }

/-- One fetched top-100 row. -/
def entryW : RankEntry := { rank := 1, name := "player", score := 123456 }

/-- The hour-formatted timestamp of both appends. -/
def stamp1 : List Char := "2026-10-12 13:00".toList

/-- C8 witness: two appends with the same hour stamp on an empty store
keep exactly the first record and leave the list unchanged the second
time. -/
theorem snapshot_dedup_witness :
    (record_ranking_snapshot (record_ranking_snapshot histEmpty stamp1 "EV" [entryW])
        stamp1 "EV" [entryW]).records =
      (record_ranking_snapshot histEmpty stamp1 "EV" [entryW]).records ∧
    ((record_ranking_snapshot histEmpty stamp1 "EV" [entryW]).records.filter
        (fun r => (stamp1.take 13).isPrefixOf r.time)) =
      [mk_snapshot stamp1 "EV" [entryW]] :=
  snapshot_dedup histEmpty stamp1 stamp1 "EV" "EV" [entryW] [entryW] (by decide) (by decide)
    rfl (by simp [histEmpty])

/-! ## parse_time_range (src/bot.py)

The regex (one-or-two digits, dash, one-or-two digits) anchored at the
start of the command argument extracts the two hour numbers a and b,
each at most 99; the embedding starts from those numbers. -/

/-- parse_time_range (src/bot.py) on the extracted hour numbers: when
the end is at most the start it is pushed one day ahead, and the labels
are the hours from a up to (excluding) the end, each reduced modulo 24
and formatted HH:00. -/
def parse_time_range (a b : ℕ) : List String :=
  let b2 := if b ≤ a then b + 24 else b
  (List.range' a (b2 - a)).map (fun h => two_digit (h % 24) ++ ":00")

/-- C9: the parsed range lists the hours a, a+1, ..., end-1 modulo 24,
where the end is b, raised to b + 24 whenever b is at most a. -/
theorem parse_time_range_spec (a b : ℕ) (ha : a ≤ 99) (hb : b ≤ 99) :
    (parse_time_range a b).length = (if b ≤ a then b + 24 else b) - a ∧
    (∀ i, i < (if b ≤ a then b + 24 else b) - a →
      (parse_time_range a b)[i]? = some (two_digit ((a + i) % 24) ++ ":00")) ∧
    (b ≤ a → (if b ≤ a then b + 24 else b) = b + 24) := by
  refine ⟨?_, ?_, fun h => if_pos h⟩
  · simp [parse_time_range]
  · intro i hi
    simp [parse_time_range, List.getElem?_range', hi]

/-- C9 witness: "08-12" lists 08:00 through 11:00, and a range whose end
is at most its start wraps past midnight. -/
theorem parse_time_range_witness :
    parse_time_range 8 12 = ["08:00", "09:00", "10:00", "11:00"] ∧
    parse_time_range 22 2 = ["22:00", "23:00", "00:00", "01:00"] ∧
    (parse_time_range 8 12).length = (if 12 ≤ 8 then 12 + 24 else 12) - 8 ∧
    (parse_time_range 8 12)[2]? = some (two_digit ((8 + 2) % 24) ++ ":00") ∧
    ((2 : ℕ) ≤ 22 → (if (2 : ℕ) ≤ 22 then 2 + 24 else 2) = 2 + 24) := by
  have h812 := parse_time_range_spec 8 12 (by decide) (by decide)
  have h222 := parse_time_range_spec 22 2 (by decide) (by decide)
  exact ⟨by decide, by decide, h812.1, h812.2.1 2 (by decide), h222.2.2⟩
